import Mathlib

/-!
Verification development for the neuronunit simulator-backend module
(neuronunit/models/backends.py).  The Python source is shallowly embedded:
dictionaries become association lists, machine floats become rationals,
fallible operations (out-of-bounds indexing, division by zero) return
Option, and stateful methods become explicit state-passing functions.
-/

/-! ## Python dictionary model

Association lists with Python dict assignment semantics: assigning to an
existing key replaces its value in place, assigning to a fresh key appends
it, preserving insertion order. -/

def dictHasKey {A : Type} (d : List (String × A)) (k : String) : Bool :=
  d.any (fun p => p.1 == k)

def dictSet {A : Type} : List (String × A) → String → A → List (String × A)
  | [], k, v => [(k, v)]
  | p :: rest, k, v => if p.1 == k then (k, v) :: rest else p :: dictSet rest k v

def dictGet {A : Type} (d : List (String × A)) (k : String) : Option A :=
  (d.find? (fun p => p.1 == k)).map Prod.snd

/-- Python d.update(e): fold assignment over the items of e, in order. -/
def dictUpdate {A : Type} (d upd : List (String × A)) : List (String × A) :=
  upd.foldl (fun acc p => dictSet acc p.1 p.2) d

/-! ## Backend attribute and run-parameter configuration

Lines 30-36: the base class methods set_attrs and set_run_params have body
pass, so the state is unchanged.  Lines 48-54: jNeuroMLBackend overrides
both with self.attrs.update(attrs) / self.run_params.update(params).
Lines 274-275: NEURONBackend overrides set_run_params with
self.params.update(params); it does not override set_attrs, inheriting the
base class no-op. -/

def Backend.set_attrs (attrs : List (String × Int)) (_upd : List (String × Int)) :
    List (String × Int) :=
  attrs

def Backend.set_run_params (params : List (String × Int)) (_upd : List (String × Int)) :
    List (String × Int) :=
  params

def jNeuroMLBackend.set_attrs (attrs upd : List (String × Int)) : List (String × Int) :=
  dictUpdate attrs upd

def jNeuroMLBackend.set_run_params (params upd : List (String × Int)) : List (String × Int) :=
  dictUpdate params upd

/-- NEURONBackend does not override set_attrs: the inherited base-class
method is a no-op. -/
def NEURONBackend.set_attrs (attrs upd : List (String × Int)) : List (String × Int) :=
  Backend.set_attrs attrs upd

def NEURONBackend.set_run_params (params upd : List (String × Int)) : List (String × Int) :=
  dictUpdate params upd

/-! ## NEURONBackend.local_run (lines 313-332)

The method rebuilds self.results from an empty dict, stores the harvested
voltage vector divided elementwise by 1000 under vm and the time vector
(elementwise float conversion, the identity here) under t, then checks
whether the key run_number is present in the freshly rebuilt dict before
incrementing it.  The engine vectors v_v_of0 and v_time are inputs of the
embedding; the previous results dict is an input as well, mirroring the
instance attribute. -/

inductive RVal
  | nums (l : List ℚ)
  | cnt (n : ℕ)
deriving DecidableEq

def NEURONBackend.local_run (v_v_of0 v_time : List ℚ)
    (_results : List (String × RVal)) : List (String × RVal) :=
  let results : List (String × RVal) := []
  let results := dictSet results "vm" (RVal.nums (v_v_of0.map (fun x => x / 1000)))
  let results := dictSet results "t" (RVal.nums (v_time.map (fun x => x)))
  if dictHasKey results "run_number" then
    match dictGet results "run_number" with
    | some (RVal.cnt n) => dictSet results "run_number" (RVal.cnt (n + 1))
    | _ => results
  else
    dictSet results "run_number" (RVal.cnt 1)

/-! ## Key-preservation lemmas for the dict model -/

theorem dictHasKey_dictSet {A : Type} (d : List (String × A)) (kk k : String) (v : A) :
    dictHasKey (dictSet d kk v) k = (dictHasKey d k || kk == k) := by
  induction d with
  | nil => simp [dictSet, dictHasKey]
  | cons p rest ih =>
    by_cases h : p.1 == kk
    · have hp : p.1 = kk := by simpa using h
      simp [dictSet, dictHasKey, h, hp]
      cases hkk : (kk == k) <;> simp [List.any_eq] at * <;> simp [hkk]
    · simp only [dictSet, h, if_neg] at *
      simp [dictHasKey] at ih ⊢
      rw [ih]
      cases hpk : (p.1 == k) <;> simp

theorem dictHasKey_dictUpdate {A : Type} (upd d : List (String × A)) (k : String) :
    dictHasKey (dictUpdate d upd) k = (dictHasKey d k || dictHasKey upd k) := by
  induction upd generalizing d with
  | nil => simp [dictUpdate, dictHasKey]
  | cons q upd ih =>
    show dictHasKey (dictUpdate (dictSet d q.1 q.2) upd) k = _
    rw [ih, dictHasKey_dictSet]
    simp [dictHasKey, Bool.or_assoc]

/-- C1: three successive local_run calls on one NEURONBackend all report
run_number equal to 1; the results dict is rebuilt from empty before the
run_number membership test, so the increment branch is unreachable and the
counter never progresses past 1. -/
theorem c1_run_number_stuck_at_one :
    dictGet (NEURONBackend.local_run [12] [5] []) "run_number" = some (RVal.cnt 1) ∧
    dictGet (NEURONBackend.local_run [12] [5]
      (NEURONBackend.local_run [12] [5] [])) "run_number" = some (RVal.cnt 1) ∧
    dictGet (NEURONBackend.local_run [12] [5]
      (NEURONBackend.local_run [12] [5]
        (NEURONBackend.local_run [12] [5] []))) "run_number" = some (RVal.cnt 1) := by
  refine ⟨?_, ?_, ?_⟩ <;> rfl

/-- C10: local_run rebuilds the results record from scratch on every call,
carrying nothing over from the previous record; the result holds exactly
the keys vm, t and run_number, with vm the engine voltage vector divided
elementwise by 1000, t the engine time vector unchanged, and run_number 1. -/
theorem c10_results_rebuilt (v t : List ℚ) (old : List (String × RVal)) :
    NEURONBackend.local_run v t old =
      [("vm", RVal.nums (v.map (fun x => x / 1000))),
       ("t", RVal.nums t),
       ("run_number", RVal.cnt 1)] := by
  simp [NEURONBackend.local_run, dictHasKey, dictSet, dictGet]

/-- C10 has universally quantified variables but no propositional
hypothesis; this closed instance exercises it on concrete vectors. -/
theorem c10_results_rebuilt_example :
    NEURONBackend.local_run [2000, 4000] [0, 1] [("stale", RVal.cnt 9)] =
      [("vm", RVal.nums [2, 4]), ("t", RVal.nums [0, 1]), ("run_number", RVal.cnt 1)] := by
  rw [c10_results_rebuilt]
  norm_num

/-- C4 counterexample: on the NEURON backend variant, set_attrs is the
inherited base-class no-op, so after setting a to 1 and then b to 2 the
attribute mapping is still empty, not the claimed union mapping. -/
theorem c4_base_set_attrs_drops_keys :
    NEURONBackend.set_attrs (NEURONBackend.set_attrs [] [("a", (1 : Int))]) [("b", 2)] = [] := by
  rfl

/-- C4 amended: jNeuroMLBackend.set_attrs, jNeuroMLBackend.set_run_params
and NEURONBackend.set_run_params merge with dict-update semantics: the two
successive partial updates compose to the union mapping, and in general the
key set of the merged mapping is the union of the old keys and the update
keys, so previously set keys are never dropped.  The base Backend methods,
and the set_attrs NEURONBackend inherits from the base class, are no-ops
that ignore their argument. -/
theorem c4_amended_update_semantics :
    (jNeuroMLBackend.set_attrs (jNeuroMLBackend.set_attrs [] [("a", (1 : Int))]) [("b", 2)]
      = [("a", 1), ("b", 2)]) ∧
    (∀ (d upd : List (String × Int)) (k : String),
      dictHasKey (jNeuroMLBackend.set_attrs d upd) k = (dictHasKey d k || dictHasKey upd k)) ∧
    (∀ (d upd : List (String × Int)) (k : String),
      dictHasKey (jNeuroMLBackend.set_run_params d upd) k
        = (dictHasKey d k || dictHasKey upd k)) ∧
    (∀ (d upd : List (String × Int)) (k : String),
      dictHasKey (NEURONBackend.set_run_params d upd) k
        = (dictHasKey d k || dictHasKey upd k)) ∧
    (∀ (d upd : List (String × Int)),
      Backend.set_attrs d upd = d ∧ Backend.set_run_params d upd = d ∧
      NEURONBackend.set_attrs d upd = d) := by
  refine ⟨by rfl, ?_, ?_, ?_, fun d upd => ⟨rfl, rfl, rfl⟩⟩ <;>
    exact fun d upd k => dictHasKey_dictUpdate upd d k

/-! ## Current stimulus descriptor and unit normalization (lines 288-311)

The method inject_square_current receives a dict with keys amplitude, delay
and duration, each value rendered through str() before the unit suffix is
stripped, so the fields are modelled by their string forms.  The descriptor
may instead nest that dict one level under the key
injected_square_current.  Line 298 takes a shallow copy of the top-level
dict, but line 300 rebinds c to the inner dict read from the original
argument, not from the copy, so in the nested case every later field
assignment lands in the dict the caller passed in. -/

structure SqDesc where
  amplitude : String
  delay : String
  duration : String
deriving DecidableEq

inductive CurrentDesc
  | flat (d : SqDesc)
  | nested (d : SqDesc)
deriving DecidableEq

/-- Python re.sub on the pattern backslash-space m s dollar: remove one
trailing " ms" if present, otherwise leave the string unchanged. -/
def stripMs (s : String) : String :=
  if (" ms".data).isSuffixOf s.data then String.mk (s.data.take (s.data.length - 3)) else s

/-- Python re.sub removing one trailing " pA" if present. -/
def stripPA (s : String) : String :=
  if (" pA".data).isSuffixOf s.data then String.mk (s.data.take (s.data.length - 3)) else s

/-- Digits of a decimal string folded to a natural number. -/
def decDigits (l : List Char) : ℕ :=
  l.foldl (fun a c => a * 10 + (c.toNat - 48)) 0

/-- Python float() on a plain decimal literal with optional sign and
optional fractional part, valued in ℚ. -/
def parseDec (s : String) : ℚ :=
  let l := s.toList
  let neg := l.head? = some '-'
  let l := if l.head? = some '-' then l.tail else l
  let ip := l.takeWhile (fun c => c ≠ '.')
  let fp := (l.dropWhile (fun c => c ≠ '.')).tail
  let v : ℚ := (decDigits ip : ℚ) + (decDigits fp : ℚ) / (10 ^ fp.length)
  if neg then -v else v

/-- The three field updates applied to whichever dict c refers to: the
delay and duration lose a trailing " ms", the amplitude a trailing " pA". -/
def stripDesc (d : SqDesc) : SqDesc :=
  { amplitude := stripPA d.amplitude, delay := stripMs d.delay,
    duration := stripMs d.duration }

/-- Value written into a hoc variable: the amplitude is the parsed float
divided by 1000, the other two fields stay strings. -/
inductive HVal
  | q (x : ℚ)
  | s (v : String)
deriving DecidableEq

/-- NEURONBackend.inject_square_current, lines 288-311, up to the final
local_run call: returns the state of the caller-supplied descriptor after
the call together with the list of hoc assignments issued, in source
order.  For a flat descriptor the field updates go to the shallow copy and
the caller object is untouched; for a nested descriptor c aliases the
caller inner dict, so the updates land there. -/
def NEURONBackend.inject_square_current (stim cell : String) (cur : CurrentDesc) :
    CurrentDesc × List (String × HVal) :=
  let c := match cur with
    | .flat d => d
    | .nested d => d
  let c := { c with delay := stripMs c.delay }
  let c := { c with duration := stripMs c.duration }
  let c := { c with amplitude := stripPA c.amplitude }
  let amps : ℚ := parseDec c.amplitude / 1000
  let pre := "explicitInput_" ++ stim ++ cell ++ "_pop0."
  let callerAfter := match cur with
    | .flat d => CurrentDesc.flat d
    | .nested _ => CurrentDesc.nested c
  (callerAfter,
   [(pre ++ "amplitude", HVal.q amps),
    (pre ++ "duration", HVal.s c.duration),
    (pre ++ "delay", HVal.s c.delay)])

/-! ## Simulation-triggering traces of inject_square_current (C3)

NEURONBackend.inject_square_current issues its three hoc assignments and
then calls self.local_run() once (line 311).
jNeuroMLBackend.inject_square_current (lines 56-57) only forwards the
descriptor to set_run_params, which updates the run-parameter dict and
re-arms the LEMS run parameters; no local_run call occurs. -/

inductive SimOp
  | hAssign (name : String) (v : HVal)
  | localRun
  | lemsSetRunParams
  | updateRunParams
deriving DecidableEq

def NEURONBackend.inject_square_current_ops (stim cell : String) (cur : CurrentDesc) :
    List SimOp :=
  ((NEURONBackend.inject_square_current stim cell cur).2.map
    (fun p => SimOp.hAssign p.1 p.2)) ++ [SimOp.localRun]

def jNeuroMLBackend.inject_square_current_ops : List SimOp :=
  [SimOp.updateRunParams, SimOp.lemsSetRunParams]

def countLocalRun : List SimOp → ℕ
  | [] => 0
  | SimOp.localRun :: rest => countLocalRun rest + 1
  | _ :: rest => countLocalRun rest

/-- C2 counterexample: a descriptor nested under injected_square_current is
mutated by inject_square_current: after the call the caller inner mapping
holds the unit-stripped strings, not the original field values. -/
theorem c2_nested_descriptor_mutated :
    (NEURONBackend.inject_square_current "stim1" "RS"
        (CurrentDesc.nested ⟨"-10.0 pA", "100.0 ms", "500.0 ms"⟩)).1 ≠
      CurrentDesc.nested ⟨"-10.0 pA", "100.0 ms", "500.0 ms"⟩ := by
  decide

/-- C2 amended: a flat descriptor is returned to the caller with all field
values unchanged (the normalizer writes to a shallow copy), but a
descriptor nested one level under injected_square_current has its inner
mapping mutated in place: delay, duration and amplitude are overwritten
with their unit-stripped string forms. -/
theorem c2_amended_descriptor_mutation (stim cell : String) (d : SqDesc) :
    (NEURONBackend.inject_square_current stim cell (CurrentDesc.flat d)).1
        = CurrentDesc.flat d ∧
    (NEURONBackend.inject_square_current stim cell (CurrentDesc.nested d)).1
        = CurrentDesc.nested (stripDesc d) := by
  exact ⟨rfl, rfl⟩

/-- C3 counterexample: on the scripted jNeuroML backend variant a call to
inject_square_current performs no local_run at all, refuting the claim
that every variant triggers exactly one execution per injection. -/
theorem c3_jneuroml_no_local_run :
    countLocalRun jNeuroMLBackend.inject_square_current_ops ≠ 1 := by
  decide

/-- C3 amended: each NEURONBackend.inject_square_current call triggers
exactly one local_run, while jNeuroMLBackend.inject_square_current triggers
none: it only records the descriptor into the run parameters. -/
theorem c3_amended_local_run_counts :
    (∀ (stim cell : String) (cur : CurrentDesc),
      countLocalRun (NEURONBackend.inject_square_current_ops stim cell cur) = 1) ∧
    countLocalRun jNeuroMLBackend.inject_square_current_ops = 0 := by
  exact ⟨fun stim cell cur => rfl, rfl⟩

/-- C9: on the literal descriptor with amplitude "-10.0 pA", delay
"100.0 ms" and duration "500.0 ms", the normalizer produces engine-native
amplitude -0.01 (the picoamp value divided by 1000), the numeric strings
"100.0" for delay and "500.0" for duration, and writes them to the hoc
names explicitInput_ stim cell _pop0 dot amplitude, duration, delay built
from the resolved component identifiers. -/
theorem c9_unit_normalization (stim cell : String) :
    (NEURONBackend.inject_square_current stim cell
        (CurrentDesc.flat ⟨"-10.0 pA", "100.0 ms", "500.0 ms"⟩)).2 =
      [("explicitInput_" ++ stim ++ cell ++ "_pop0.amplitude", HVal.q (-1/100)),
       ("explicitInput_" ++ stim ++ cell ++ "_pop0.duration", HVal.s "500.0"),
       ("explicitInput_" ++ stim ++ cell ++ "_pop0.delay", HVal.s "100.0")] := by
  have hstrip : stripPA "-10.0 pA" = "-10.0" := by decide
  have h1 : List.takeWhile (fun c => !decide (c = '.')) ['1', '0', '.', '0'] = ['1', '0'] := by
    decide
  have h2 : List.dropWhile (fun c => !decide (c = '.')) ['1', '0', '.', '0'] = ['.', '0'] := by
    decide
  have h3 : decDigits ['1', '0'] = 10 := by decide
  have h4 : decDigits ['0'] = 0 := by decide
  have hamp : parseDec "-10.0" / 1000 = (-1/100 : ℚ) := by
    norm_num [parseDec]
    rw [h1, h2]
    norm_num [h3, h4]
  have hdur : stripMs "500.0 ms" = "500.0" := by decide
  have hdel : stripMs "100.0 ms" = "100.0" := by decide
  have ha : ("_pop0." ++ "amplitude" : String) = "_pop0.amplitude" := rfl
  have hb : ("_pop0." ++ "duration" : String) = "_pop0.duration" := rfl
  have hc : ("_pop0." ++ "delay" : String) = "_pop0.delay" := rfl
  simp only [NEURONBackend.inject_square_current, hstrip, hdur, hdel]
  norm_num [String.append_assoc, ha, hb, hc, hamp]

/-! ## Component classification in load_model (lines 262-271)

After loading, the LEMS component list is scanned in order; a component
whose type string contains "pulseGenerator" overwrites the stimulus
identifier current_src_name with its id, and one whose type string
contains "Cell" overwrites the cell identifier cell_name.  The Python
membership test str in str is an exact, case-sensitive substring test. -/

structure LemsComponent where
  id : String
  type : String

/-- Python substring membership: needle occurs contiguously in hay. -/
def containsSub (needle hay : String) : Bool :=
  (List.range (hay.data.length + 1)).any (fun k => needle.data.isPrefixOf (hay.data.drop k))

def load_model_resolve (comps : List LemsComponent) (cur cell : Option String) :
    Option String × Option String :=
  comps.foldl
    (fun acc i =>
      let acc := if containsSub "pulseGenerator" i.type then (some i.id, acc.2) else acc
      if containsSub "Cell" i.type then (acc.1, some i.id) else acc)
    (cur, cell)

/-- ASCII lowercasing of one character. -/
def lowerChar (c : Char) : Char :=
  if 'A' ≤ c ∧ c ≤ 'Z' then Char.ofNat (c.toNat + 32) else c

/-- ASCII lowercasing of a string. -/
def lowerStr (s : String) : String :=
  String.mk (s.data.map lowerChar)

/-- Following the words of the spec, for comparison only: a case-insensitive
substring test, lowercasing both sides before the containment check. -/
def specContainsCI (needle hay : String) : Bool :=
  containsSub (lowerStr needle) (lowerStr hay)

/-- C5 counterexample: the type string "pulsegeneratorDC" contains
"pulseGenerator" under the case-insensitive match the claim describes, yet
load_model leaves the stimulus identifier unset on that component, because
the code performs a case-sensitive substring test. -/
theorem c5_not_case_insensitive :
    specContainsCI "pulseGenerator" "pulsegeneratorDC" = true ∧
    load_model_resolve [⟨"s1", "pulsegeneratorDC"⟩] none none = (none, none) := by
  constructor <;> decide

/-- C5 amended: classification is by a case-sensitive substring match on
the declared type string: appending a component whose type contains
"pulseGenerator" (exactly) overwrites the stimulus id with its id, one
whose type contains "Cell" overwrites the cell id, and otherwise the
accumulated ids are kept, so the last match encountered wins; on the list
with stim1 of type pulseGeneratorDC and RS of type CellType the resolved
ids are stim1 and RS. -/
theorem c5_amended_case_sensitive_last_wins :
    (∀ (comps : List LemsComponent) (c : LemsComponent) (cur cell : Option String),
      load_model_resolve (comps ++ [c]) cur cell =
        ((if containsSub "pulseGenerator" c.type then some c.id
          else (load_model_resolve comps cur cell).1),
         (if containsSub "Cell" c.type then some c.id
          else (load_model_resolve comps cur cell).2))) ∧
    load_model_resolve [⟨"stim1", "pulseGeneratorDC"⟩, ⟨"RS", "CellType"⟩] none none =
      (some "stim1", some "RS") := by
  constructor
  · intro comps c cur cell
    rw [load_model_resolve, List.foldl_append]
    by_cases h1 : containsSub "pulseGenerator" c.type <;>
      by_cases h2 : containsSub "Cell" c.type <;>
        simp [load_model_resolve, h1, h2]
  · decide

/-! ## Waveform resampler (lines 156-208)

get_variable_step_analog_signal converts the variable-step recording to a
fixed-step one.  The state of the Python while loop is the emitted list,
the fixed-step cursor fTime, the current irregular sample time vTime and
its index vIndex.  Fallible operations return none: an out-of-range list
index models the Python IndexError raised by vTimes[vIndex] when the inner
scan runs off the end, and linearInterpolate models the ZeroDivisionError
raised when the bracketing times coincide.  The outer loop advances fTime
by the fixed step until it exceeds the final irregular time; the embedding
runs it on a fuel bound large enough for every terminating execution,
returning none when the fuel is exhausted before the loop ends. -/

def linearInterpolate (tStart tEnd vStart vEnd tTarget : ℚ) : Option ℚ :=
  if tEnd - tStart = 0 then none
  else some ((vEnd - vStart) * ((tTarget - tStart) / (tEnd - tStart)) + vStart)

/-- The inner while loop of lines 183-185: advance vIndex until the
irregular time meets or exceeds the cursor or the index bound fails; the
read vTimes[vIndex + 1] is out of range exactly when Python would raise
IndexError. -/
def advanceV (vTimes : List ℚ) (fTime : ℚ) (vTime : ℚ) (vIndex : ℕ) : Option (ℚ × ℕ) :=
  if h : fTime > vTime ∧ vIndex < vTimes.length then
    match vTimes[vIndex + 1]? with
    | none => none
    | some vTimeNext => advanceV vTimes fTime vTimeNext (vIndex + 1)
  else some (vTime, vIndex)
termination_by vTimes.length - vIndex
decreasing_by omega

def resampleLoop (vTimes vPots : List ℚ) (fDt duration : ℚ) :
    ℕ → ℚ → ℚ → ℕ → Option (List ℚ)
  | fuel, fTime, vTime, vIndex =>
    if fTime ≤ duration then
      match fuel with
      | 0 => none
      | fuel + 1 =>
        if fTime = vTime then
          match vPots[vIndex]? with
          | some p =>
            (resampleLoop vTimes vPots fDt duration fuel (fTime + fDt) vTime vIndex).map
              (fun l => p :: l)
          | none => none
        else
          match advanceV vTimes fTime vTime vIndex with
          | some (vTimeNew, vIndexNew) =>
            match vTimes[vIndexNew - 1]?, vPots[vIndexNew - 1]?, vPots[vIndexNew]? with
            | some vTimeMinus1, some vPotMinus1, some vPotAt =>
              match linearInterpolate vTimeMinus1 vTimeNew vPotMinus1 vPotAt fTime with
              | some fPot =>
                (resampleLoop vTimes vPots fDt duration fuel (fTime + fDt) vTimeNew
                  vIndexNew).map (fun l => fPot :: l)
              | none => none
            | _, _, _ => none
          | none => none
    else some []

/-- Upper bound on the number of outer-loop iterations: the cursor starts
at the first irregular time and advances by fDt while it does not exceed
the final irregular time. -/
def fuelFor (t0 duration fDt : ℚ) : ℕ := (⌊(duration - t0) / fDt⌋).toNat + 1

def get_variable_step_analog_signal (vTimes vPots : List ℚ) (fixedTimeStep : ℚ) :
    Option (List ℚ) :=
  match vTimes[vTimes.length - 1]?, vTimes[0]? with
  | some duration, some t0 =>
      resampleLoop vTimes vPots fixedTimeStep duration (fuelFor t0 duration fixedTimeStep)
        t0 t0 0
  | _, _ => none

/-- Number of outer-loop iterations still to run from cursor position t. -/
def numSteps (duration fDt t : ℚ) : ℕ :=
  if t ≤ duration then (⌊(duration - t) / fDt⌋).toNat + 1 else 0

theorem numSteps_succ (duration fDt t : ℚ) (hF : 0 < fDt) (ht : t ≤ duration) :
    numSteps duration fDt (t + fDt) + 1 = numSteps duration fDt t := by
  by_cases h2 : t + fDt ≤ duration
  · have hdiv : (duration - (t + fDt)) / fDt = (duration - t) / fDt - 1 := by
      field_simp
      ring
    have hone : (1 : ℤ) ≤ ⌊(duration - t) / fDt⌋ := by
      rw [Int.le_floor]
      rw [le_div_iff₀ hF]
      push_cast
      linarith
    simp only [numSteps, if_pos h2, if_pos ht, hdiv, Int.floor_sub_one]
    omega
  · have hz : ⌊(duration - t) / fDt⌋ = 0 := by
      rw [Int.floor_eq_zero_iff]
      constructor
      · exact div_nonneg (by linarith) (le_of_lt hF)
      · rw [div_lt_one hF]
        linarith
    simp only [numSteps, if_neg h2, if_pos ht, hz]
    omega

theorem advanceV_spec_aux (vTimes : List ℚ) (hmono : vTimes.Pairwise (· < ·)) (fTime : ℚ)
    (hlast : fTime ≤ vTimes[vTimes.length - 1]?.getD 0) :
    ∀ (c vIndex : ℕ) (hvi : vIndex < vTimes.length), vTimes.length - vIndex ≤ c →
      ∃ j, ∃ hj : j < vTimes.length,
        advanceV vTimes fTime (vTimes[vIndex]) vIndex = some (vTimes[j], j) ∧
        vIndex ≤ j ∧ fTime ≤ vTimes[j] := by
  have hm : ∀ (i j : ℕ) (hi : i < vTimes.length) (hj : j < vTimes.length), i < j →
      vTimes[i] < vTimes[j] := List.pairwise_iff_getElem.mp hmono
  intro c
  induction c with
  | zero => intro vIndex hvi hc; omega
  | succ c ih =>
    intro vIndex hvi hc
    rw [advanceV]
    by_cases h : fTime > vTimes[vIndex] ∧ vIndex < vTimes.length
    · have hlt : vIndex < vTimes.length - 1 := by
        by_contra hcon
        have hx : vIndex = vTimes.length - 1 := by omega
        subst hx
        rw [List.getElem?_eq_getElem hvi] at hlast
        simp at hlast
        linarith [h.1]
      have hnext : vIndex + 1 < vTimes.length := by omega
      rw [dif_pos h, List.getElem?_eq_getElem hnext]
      obtain ⟨j, hj, heq, hij, hft⟩ := ih (vIndex + 1) hnext (by omega)
      exact ⟨j, hj, heq, by omega, hft⟩
    · rw [dif_neg h]
      have hle : fTime ≤ vTimes[vIndex] := by
        by_contra hc2
        push_neg at hc2
        exact h ⟨hc2, hvi⟩
      exact ⟨vIndex, hvi, rfl, le_refl _, hle⟩

/-- Main loop invariant: starting from any reachable state (current index
in range, current irregular time the one at the current index, cursor not
before the first irregular time) with enough fuel, the loop completes
without an error and emits exactly one sample per remaining cursor
position. -/
theorem resampleLoop_spec (vTimes vPots : List ℚ) (fDt duration : ℚ) (hF : 0 < fDt)
    (hmono : vTimes.Pairwise (· < ·)) (hlen : vPots.length = vTimes.length)
    (hdur : duration = vTimes[vTimes.length - 1]?.getD 0) :
    ∀ (fuel : ℕ) (fTime : ℚ) (vIndex : ℕ) (hvi : vIndex < vTimes.length),
      vTimes[0]?.getD 0 ≤ fTime →
      numSteps duration fDt fTime ≤ fuel →
      ∃ l, resampleLoop vTimes vPots fDt duration fuel fTime (vTimes[vIndex]) vIndex = some l ∧
        l.length = numSteps duration fDt fTime := by
  have hm : ∀ (i j : ℕ) (hi : i < vTimes.length) (hj : j < vTimes.length), i < j →
      vTimes[i] < vTimes[j] := List.pairwise_iff_getElem.mp hmono
  intro fuel
  induction fuel with
  | zero =>
    intro fTime vIndex hvi hge hns
    have hgt : ¬ fTime ≤ duration := by
      intro hle
      simp [numSteps, hle] at hns
    rw [resampleLoop, if_neg hgt]
    exact ⟨[], rfl, by simp [numSteps, hgt]⟩
  | succ fuel ih =>
    intro fTime vIndex hvi hge hns
    by_cases hle : fTime ≤ duration
    case neg =>
      rw [resampleLoop, if_neg hle]
      exact ⟨[], rfl, by simp [numSteps, hle]⟩
    case pos =>
      have hnum := numSteps_succ duration fDt fTime hF hle
      have hns2 : numSteps duration fDt (fTime + fDt) ≤ fuel := by omega
      have hge2 : vTimes[0]?.getD 0 ≤ fTime + fDt := by linarith
      have h0 : 0 < vTimes.length := by omega
      have hge0 : vTimes[0] ≤ fTime := by
        rw [List.getElem?_eq_getElem h0] at hge
        simpa using hge
      rw [resampleLoop, if_pos hle]
      by_cases heq : fTime = vTimes[vIndex]
      case pos =>
        have hpi : vIndex < vPots.length := by omega
        obtain ⟨l, hl, hlength⟩ := ih (fTime + fDt) vIndex hvi hge2 hns2
        refine ⟨vPots[vIndex] :: l, ?_, ?_⟩
        · simp only [if_pos heq, List.getElem?_eq_getElem hpi]
          rw [hl]
          rfl
        · simp only [List.length_cons, hlength]
          omega
      case neg =>
        have hlast : fTime ≤ vTimes[vTimes.length - 1]?.getD 0 := by rw [← hdur]; exact hle
        obtain ⟨j, hj, hadv, hij, hfj⟩ :=
          advanceV_spec_aux vTimes hmono fTime hlast vTimes.length vIndex hvi (by omega)
        have hj1 : 1 ≤ j := by
          rcases Nat.eq_zero_or_pos j with h0j | h
          · exfalso
            have hv0 : vIndex = 0 := by omega
            subst hv0
            subst h0j
            exact heq (le_antisymm hfj hge0)
          · exact h
        have hjm1 : j - 1 < vTimes.length := by omega
        have hjp : j < vPots.length := by omega
        have hjm1p : j - 1 < vPots.length := by omega
        have hdenom : ¬ (vTimes[j] - vTimes[j - 1] = 0) := by
          have hlt := hm (j - 1) j hjm1 hj (by omega)
          intro hc
          rw [sub_eq_zero] at hc
          exact absurd hc (ne_of_gt hlt)
        obtain ⟨l, hl, hlength⟩ := ih (fTime + fDt) j hj hge2 hns2
        refine ⟨((vPots[j] - vPots[j - 1]) * ((fTime - vTimes[j - 1]) /
            (vTimes[j] - vTimes[j - 1])) + vPots[j - 1]) :: l, ?_, ?_⟩
        · rw [if_neg heq, hadv]
          simp only [List.getElem?_eq_getElem hjm1, List.getElem?_eq_getElem hjm1p,
            List.getElem?_eq_getElem hjp, linearInterpolate, if_neg hdenom, hl]
          rfl
        · simp only [List.length_cons, hlength]
          omega

/-- C8: for a nonempty, strictly increasing irregular time axis, a value
axis of the same length and a positive fixed step, the resampler completes
without dividing by zero in any interpolation it evaluates and without any
out-of-range index into the time or value arrays (all such failures are
the none outcome of the embedding). -/
theorem c8_resampler_safe (vTimes vPots : List ℚ) (fDt : ℚ) (hF : 0 < fDt)
    (hne : vTimes ≠ []) (hmono : vTimes.Pairwise (· < ·))
    (hlen : vPots.length = vTimes.length) :
    (get_variable_step_analog_signal vTimes vPots fDt).isSome := by
  have h0 : 0 < vTimes.length := List.length_pos.mpr hne
  have hl1 : vTimes.length - 1 < vTimes.length := by omega
  have hm : ∀ (i j : ℕ) (hi : i < vTimes.length) (hj : j < vTimes.length), i < j →
      vTimes[i] < vTimes[j] := List.pairwise_iff_getElem.mp hmono
  have ht0d : vTimes[0] ≤ vTimes[vTimes.length - 1] := by
    rcases Nat.eq_zero_or_pos (vTimes.length - 1) with hz | hp
    · simp only [hz]
      exact le_refl _
    · exact le_of_lt (hm 0 _ h0 hl1 hp)
  rw [get_variable_step_analog_signal]
  rw [List.getElem?_eq_getElem hl1, List.getElem?_eq_getElem h0]
  have hns : numSteps (vTimes[vTimes.length - 1]) fDt (vTimes[0])
      ≤ fuelFor (vTimes[0]) (vTimes[vTimes.length - 1]) fDt := by
    simp [numSteps, fuelFor, if_pos ht0d]
  obtain ⟨l, hl, _⟩ := resampleLoop_spec vTimes vPots fDt (vTimes[vTimes.length - 1]) hF
    hmono hlen (by rw [List.getElem?_eq_getElem hl1]; rfl)
    (fuelFor (vTimes[0]) (vTimes[vTimes.length - 1]) fDt) (vTimes[0]) 0 h0
    (by rw [List.getElem?_eq_getElem h0]; exact le_refl _) hns
  simp only [hl]
  rfl

/-- C8 witness at the concrete axis 0, 1, 4 with values 2, 5, 6 and fixed
step 3. -/
theorem c8_resampler_safe_witness :
    (get_variable_step_analog_signal [0, 1, 4] [2, 5, 6] 3).isSome :=
  c8_resampler_safe [0, 1, 4] [2, 5, 6] 3 (by norm_num) (by decide) (by decide) (by decide)

/-- C6: for a strictly increasing irregular time axis of length at least 2
spanning duration D (last time minus first time), an equally long value
axis and a fixed step fDt greater than 0, the output has exactly
floor(D / fDt) + 1 samples and its first sample equals the first input
value exactly. -/
theorem c6_resampler_count_and_head (vTimes vPots : List ℚ) (fDt : ℚ) (hF : 0 < fDt)
    (hne : vTimes ≠ []) (h2 : 2 ≤ vTimes.length) (hmono : vTimes.Pairwise (· < ·))
    (hlen : vPots.length = vTimes.length) :
    ∃ l, get_variable_step_analog_signal vTimes vPots fDt = some l ∧
      l.length = (⌊(vTimes.getLast hne - vTimes.head hne) / fDt⌋).toNat + 1 ∧
      l.head? = vPots.head? := by
  have h0 : 0 < vTimes.length := by omega
  have h0p : 0 < vPots.length := by omega
  have hl1 : vTimes.length - 1 < vTimes.length := by omega
  have hm : ∀ (i j : ℕ) (hi : i < vTimes.length) (hj : j < vTimes.length), i < j →
      vTimes[i] < vTimes[j] := List.pairwise_iff_getElem.mp hmono
  have ht0d : vTimes[0] ≤ vTimes[vTimes.length - 1] := le_of_lt (hm 0 _ h0 hl1 (by omega))
  rw [get_variable_step_analog_signal]
  rw [List.getElem?_eq_getElem hl1, List.getElem?_eq_getElem h0]
  have hfuel : fuelFor (vTimes[0]) (vTimes[vTimes.length - 1]) fDt
      = (⌊(vTimes[vTimes.length - 1] - vTimes[0]) / fDt⌋).toNat + 1 := rfl
  have hnum := numSteps_succ (vTimes[vTimes.length - 1]) fDt (vTimes[0]) hF ht0d
  have hns0 : numSteps (vTimes[vTimes.length - 1]) fDt (vTimes[0])
      = (⌊(vTimes[vTimes.length - 1] - vTimes[0]) / fDt⌋).toNat + 1 := by
    simp [numSteps, if_pos ht0d]
  have hns2 : numSteps (vTimes[vTimes.length - 1]) fDt (vTimes[0] + fDt)
      ≤ (⌊(vTimes[vTimes.length - 1] - vTimes[0]) / fDt⌋).toNat := by omega
  obtain ⟨l, hl, hlength⟩ := resampleLoop_spec vTimes vPots fDt (vTimes[vTimes.length - 1])
    hF hmono hlen (by rw [List.getElem?_eq_getElem hl1]; rfl)
    ((⌊(vTimes[vTimes.length - 1] - vTimes[0]) / fDt⌋).toNat) (vTimes[0] + fDt) 0 h0
    (by rw [List.getElem?_eq_getElem h0]; simp; linarith) hns2
  refine ⟨vPots[0] :: l, ?_, ?_, ?_⟩
  · show resampleLoop vTimes vPots fDt (vTimes[vTimes.length - 1])
        (fuelFor (vTimes[0]) (vTimes[vTimes.length - 1]) fDt) (vTimes[0]) (vTimes[0]) 0
        = some (vPots[0] :: l)
    rw [hfuel, resampleLoop, if_pos ht0d]
    simp only [if_pos rfl, List.getElem?_eq_getElem h0p, hl]
    rfl
  · simp only [List.length_cons, hlength]
    rw [List.getLast_eq_getElem, List.head_eq_getElem_zero hne]
    omega
  · rw [List.head?_cons]
    rcases vPots with _ | ⟨p, ps⟩
    · simp at h0p
    · rfl

/-- C6 witness at the concrete axis 0, 1, 3 with values 5, 7, 9 and fixed
step 2: the output is some list of floor(3 / 2) + 1 = 2 samples starting
with 5. -/
theorem c6_resampler_count_and_head_witness :
    ∃ l, get_variable_step_analog_signal [0, 1, 3] [5, 7, 9] 2 = some l ∧
      l.length = (⌊(([0, 1, 3] : List ℚ).getLast (by decide)
        - ([0, 1, 3] : List ℚ).head (by decide)) / 2⌋).toNat + 1 ∧
      l.head? = ([5, 7, 9] : List ℚ).head? :=
  c6_resampler_count_and_head [0, 1, 3] [5, 7, 9] 2 (by norm_num) (by decide) (by decide)
    (by decide) (by decide)

/-! ## Uniform time axes for the idempotence property -/

def uniformTimes (t0 S : ℚ) (n : ℕ) : List ℚ :=
  (List.range n).map (fun (k : ℕ) => t0 + (k : ℚ) * S)

theorem uniformTimes_length (t0 S : ℚ) (n : ℕ) : (uniformTimes t0 S n).length = n := by
  rw [uniformTimes, List.length_map, List.length_range]

theorem uniformTimes_getElem (t0 S : ℚ) (n k : ℕ) (hk : k < n) :
    (uniformTimes t0 S n)[k]? = some (t0 + (k : ℚ) * S) := by
  rw [uniformTimes, List.getElem?_map, List.getElem?_range hk]
  rfl

theorem c7_loop (t0 S : ℚ) (hS : 0 < S) (m : ℕ) (vPots : List ℚ)
    (hlen : vPots.length = m + 1) :
    ∀ (fuel k : ℕ), k < m + 1 → m - k ≤ fuel →
      resampleLoop (uniformTimes t0 S (m + 1)) vPots S (t0 + (m : ℚ) * S) fuel
        (t0 + ((k : ℚ) + 1) * S) (t0 + (k : ℚ) * S) k = some (vPots.drop (k + 1)) := by
  intro fuel
  induction fuel with
  | zero =>
    intro k hk hc
    have hkm : k = m := by omega
    subst hkm
    have hgt : ¬ (t0 + ((k : ℚ) + 1) * S ≤ t0 + (k : ℚ) * S) := by
      intro hcon
      nlinarith
    rw [resampleLoop, if_neg hgt]
    rw [← hlen, List.drop_length]
  | succ fuel ih =>
    intro k hk hc
    by_cases hkm : k = m
    · subst hkm
      have hgt : ¬ (t0 + ((k : ℚ) + 1) * S ≤ t0 + (k : ℚ) * S) := by
        intro hcon
        nlinarith
      rw [resampleLoop, if_neg hgt]
      rw [← hlen, List.drop_length]
    · have hklt : k < m := by omega
      have hcast : ((k : ℚ) + 1) ≤ (m : ℚ) := by
        have hx : (k : ℚ) + 1 = ((k + 1 : ℕ) : ℚ) := by push_cast; ring
        rw [hx]
        exact_mod_cast hklt
      have hle : t0 + ((k : ℚ) + 1) * S ≤ t0 + (m : ℚ) * S := by nlinarith
      have hne2 : ¬ (t0 + ((k : ℚ) + 1) * S = t0 + (k : ℚ) * S) := by
        intro hcon
        nlinarith
      have hread : (uniformTimes t0 S (m + 1))[k + 1]? = some (t0 + ((k : ℚ) + 1) * S) := by
        rw [uniformTimes_getElem t0 S (m + 1) (k + 1) (by omega)]
        push_cast
        ring_nf
      have hadv : advanceV (uniformTimes t0 S (m + 1)) (t0 + ((k : ℚ) + 1) * S)
          (t0 + (k : ℚ) * S) k = some (t0 + ((k : ℚ) + 1) * S, k + 1) := by
        rw [advanceV]
        rw [dif_pos ⟨by nlinarith, by rw [uniformTimes_length]; omega⟩]
        rw [hread]
        show advanceV (uniformTimes t0 S (m + 1)) (t0 + ((k : ℚ) + 1) * S)
          (t0 + ((k : ℚ) + 1) * S) (k + 1) = some (t0 + ((k : ℚ) + 1) * S, k + 1)
        rw [advanceV]
        rw [dif_neg (by intro hcon; exact absurd hcon.1 (lt_irrefl _))]
      have hkp : k < vPots.length := by omega
      have hkp1 : k + 1 < vPots.length := by omega
      have hreadk : (uniformTimes t0 S (m + 1))[k]? = some (t0 + (k : ℚ) * S) :=
        uniformTimes_getElem t0 S (m + 1) k (by omega)
      have hdenom : ¬ (t0 + ((k : ℚ) + 1) * S - (t0 + (k : ℚ) * S) = 0) := by
        intro hcon
        nlinarith
      have hinterp : linearInterpolate (t0 + (k : ℚ) * S) (t0 + ((k : ℚ) + 1) * S)
          (vPots[k]) (vPots[k + 1]) (t0 + ((k : ℚ) + 1) * S) = some (vPots[k + 1]) := by
        rw [linearInterpolate, if_neg hdenom]
        congr 1
        have hs : t0 + ((k : ℚ) + 1) * S - (t0 + (k : ℚ) * S) = S := by ring
        rw [hs]
        rw [div_self (ne_of_gt hS)]
        ring
      have htail := ih (k + 1) (by omega) (by omega)
      have hcast2 : ((k + 1 : ℕ) : ℚ) = (k : ℚ) + 1 := by push_cast; ring
      rw [hcast2] at htail
      have hstep : t0 + ((k : ℚ) + 1) * S + S = t0 + ((k : ℚ) + 1 + 1) * S := by ring
      rw [resampleLoop, if_pos hle, if_neg hne2, hadv]
      simp only [Nat.add_sub_cancel, hreadk, List.getElem?_eq_getElem hkp,
        List.getElem?_eq_getElem hkp1, hinterp, hstep, htail]
      show some (vPots[k + 1] :: List.drop (k + 1 + 1) vPots) = some (List.drop (k + 1) vPots)
      rw [← List.drop_eq_getElem_cons hkp1]

/-- C7: if the irregular axis is itself uniform with step S greater than 0
and length at least 2, resampling with target step S returns exactly the
input value sequence; over the rationals the interpolation is exact, so no
tolerance is needed. -/
theorem c7_uniform_idempotent (t0 S : ℚ) (hS : 0 < S) (n : ℕ) (hn : 2 ≤ n)
    (vPots : List ℚ) (hlen : vPots.length = n) :
    get_variable_step_analog_signal (uniformTimes t0 S n) vPots S = some vPots := by
  obtain ⟨m, rfl⟩ : ∃ m, n = m + 1 := ⟨n - 1, by omega⟩
  have hL : (uniformTimes t0 S (m + 1)).length = m + 1 := uniformTimes_length t0 S (m + 1)
  have hlast : (uniformTimes t0 S (m + 1))[(uniformTimes t0 S (m + 1)).length - 1]?
      = some (t0 + (m : ℚ) * S) := by
    rw [hL, Nat.add_sub_cancel]
    exact uniformTimes_getElem t0 S (m + 1) m (by omega)
  have h00 : (uniformTimes t0 S (m + 1))[0]? = some t0 := by
    rw [uniformTimes_getElem t0 S (m + 1) 0 (by omega)]
    norm_num
  rw [get_variable_step_analog_signal, hlast, h00]
  show resampleLoop (uniformTimes t0 S (m + 1)) vPots S (t0 + (m : ℚ) * S)
      (fuelFor t0 (t0 + (m : ℚ) * S) S) t0 t0 0 = some vPots
  have hfuel : fuelFor t0 (t0 + (m : ℚ) * S) S = m + 1 := by
    rw [fuelFor]
    have hq : (t0 + (m : ℚ) * S - t0) / S = (m : ℚ) := by
      field_simp
    rw [hq, Int.floor_natCast]
    simp
  rw [hfuel]
  have hmq : (0 : ℚ) ≤ (m : ℚ) := Nat.cast_nonneg m
  have hle0 : t0 ≤ t0 + (m : ℚ) * S := by nlinarith
  have h0p : 0 < vPots.length := by omega
  have htail := c7_loop t0 S hS m vPots hlen m 0 (by omega) (by omega)
  norm_num at htail
  rw [resampleLoop, if_pos hle0, if_pos rfl]
  simp only [List.getElem?_eq_getElem h0p, htail]
  rcases vPots with _ | ⟨p, ps⟩
  · simp at h0p
  · rfl

/-- C7 witness on the uniform axis 0, 1 with values 3, 4 and target step
1: resampling returns the input values unchanged. -/
theorem c7_uniform_idempotent_witness :
    get_variable_step_analog_signal (uniformTimes 0 1 2) [3, 4] 1 = some [3, 4] :=
  c7_uniform_idempotent 0 1 (by norm_num) 2 (by norm_num) [3, 4] (by decide)
